import Mathlib

/-!
Shallow embedding of the mscfb compound-file reader (richardlehane/mscfb)
and proofs about it.  Each definition is translated from the Go source;
the file/line references in the doc comments point at the embedded code.

Conventions:
* Go `uint32` values are modelled as `Nat`; where the Go arithmetic can
  wrap (a 32-bit multiply), the wrap is made explicit with `% 2 ^ 32`.
* Go `int64` run lists (`[][2]int64`) are modelled as `List (Int × Int)`.
* Fallible Go functions become `Except`-valued functions; a Go runtime
  panic (out-of-range slice index) is a distinguished constructor of the
  result type; unbounded Go loops take an explicit fuel argument, with
  fuel exhaustion a distinguished constructor as well.
-/

namespace Mscfb

/-- Reserved sector numbers, from src/mscfb.go lines 69-77. -/
def maxRegSect : Nat := 0xFFFFFFFA

/-- End-of-chain marker (src/mscfb.go line 73). -/
def endOfChain : Nat := 0xFFFFFFFE

/-- Empty directory-entry pointer (src/mscfb.go line 76). -/
def noStream : Nat := 0xFFFFFFFF

/-- Mini-stream cutoff (src/mscfb.go line 65). -/
def miniStreamCutoffSize : Nat := 4096

/-- Total length (in bytes) of a run list: the sum of the second
components of the `(offset, length)` pairs. -/
def sumLen (l : List (Int × Int)) : Int := (l.map Prod.snd).sum

/-- The run-merging loop body of `compressChain` (src/streams.go lines
49-60).  The Go loop keeps a cursor `x`; elements before `x` are final.
Here the final prefix is the part already emitted by the recursion and
the argument list is `locs[x:]`.  The fuel argument mirrors the Go loop
bound `i < l` (where `l` is the length of the original list): every Go
iteration, merging or advancing, consumes one unit. -/
def compressAux : Nat → List (Int × Int) → List (Int × Int)
  | _, [] => []
  | _, [a] => [a]
  | 0, locs => locs
  | fuel + 1, a :: b :: rest =>
    if a.1 + a.2 = b.1 then compressAux fuel ((a.1, a.2 + b.2) :: rest)
    else a :: compressAux fuel (b :: rest)

/-- `compressChain` from src/streams.go lines 49-60: merge adjacent runs
that are contiguous in file offset.  The loop bound is the length of the
input list, as in the Go source (`l := len(locs)`). -/
def compressChain (locs : List (Int × Int)) : List (Int × Int) :=
  compressAux locs.length locs

/-- The same merging computation without the loop-counter bound; proved
below to agree with `compressChain` (the Go bound `i < l` can never cut
the merging short). -/
def compressRec : List (Int × Int) → List (Int × Int)
  | [] => []
  | [a] => [a]
  | a :: b :: rest =>
    if a.1 + a.2 = b.1 then compressRec ((a.1, a.2 + b.2) :: rest)
    else a :: compressRec (b :: rest)
termination_by l => l.length
decreasing_by
  all_goals simp [List.length_cons]

/-- `truncate` from src/streams.go lines 62-66: shrink the final run so
that the total length matches the declared stream size.  The Go source
indexes `locs[0]` and `locs[len(locs)-1]`, so it is only ever applied to
non-empty lists (it would panic otherwise); `headD`/`getLastD` stand in
for those accesses. -/
def truncate (locs : List (Int × Int)) (sz : Int) : List (Int × Int) :=
  let remainder : Int := (locs.length : Int) * (locs.headD (0, 0)).2 - sz
  let last := locs.getLastD (0, 0)
  locs.set (locs.length - 1) (last.1, last.2 - remainder)

/-- `popStream` from src/streams.go lines 100-119.  `popGo s stream`
returns `(pop, n, rest)`: the popped prefix of runs totalling at most
`s` bytes, the byte count delivered, and the remaining run list.  The Go
loop accumulates `total` and splits the first run at which
`s < total`; passing the still-needed byte count `s` down the recursion
is the same arithmetic (`s < total` iff `s - priorLengths < v.2`).  In
the split case Go returns `sz` itself, which equals the prior lengths
plus the split amount; in the fall-through case it returns the
accumulated `total`. -/
def popGo (s : Int) : List (Int × Int) → List (Int × Int) × Int × List (Int × Int)
  | [] => ([], 0, [])
  | v :: rest =>
    if s < v.2 then
      ([(v.1, s)], s, (v.1 + s, v.2 - s) :: rest)
    else
      let r := popGo (s - v.2) rest
      (v :: r.1, v.2 + r.2.1, r.2.2)

/-- Read status of a `File.Read` call (src/unnamed/part_004).  The Go
code returns `io.EOF`, `nil`, `ErrRead`, or an error propagated from the
run-list materialisation (`ErrSeek`/`ErrRead`); there is no distinct
"no stream" error anywhere in the source. -/
inductive RStatus where
  | ok
  | eof
  | errRead
  | errSeek
deriving DecidableEq, Repr

/-- The copy loop inside `File.Read` (src/unnamed/part_004 lines
147-159), restricted to its control flow: for each popped run the Go
code checks `idx < 0 || jdx < idx || jdx > len(b)` before issuing a
`ReadAt` into `b[idx:jdx]`.  The byte source is modelled as always
serving a full read (an I/O failure is outside the reader), so the
result is whether every bound check passed, together with the list of
runs for which a byte-source read was issued. -/
def copyLoop (blen : Int) : Int → List (Int × Int) → Bool × List (Int × Int)
  | _, [] => (true, [])
  | idx, v :: rest =>
    let jdx := idx + v.2
    if idx < 0 ∨ jdx < idx ∨ jdx > blen then (false, [])
    else
      let r := copyLoop blen jdx rest
      (r.1, v :: r.2)

/-- State of one directory entry that `File.Read` consults
(src/unnamed/part_004 lines 80-89): object type (0 unallocated,
1 storage, 2 stream, 5 root-storage), the fixed-up size, and the run
list — `none` models a nil Go slice (not yet materialised), `some`
a materialised (possibly empty) run list. -/
structure FileSt where
  objectType : Nat
  size : Nat
  stream : Option (List (Int × Int))
deriving DecidableEq, Repr

/-- Result of a `File.Read` call: byte count, status, and the list of
`(offset, length)` reads issued to the underlying byte source. -/
structure ReadRes where
  n : Int
  status : RStatus
  ops : List (Int × Int)
deriving DecidableEq, Repr

/-- `File.Read` from src/unnamed/part_004 lines 128-164.  `mat` is the
outcome the materialiser `f.r.stream` would produce for this entry (it
depends on the FAT of the underlying file, which Read consults only when
`f.stream` is nil); the byte source itself is modelled as always
serving reads in full. -/
def fileRead (mat : Except RStatus (List (Int × Int))) (f : FileSt) (blen : Nat) :
    ReadRes × FileSt :=
  if f.objectType ≠ 2 ∨ f.size < 1 then (⟨0, .eof, []⟩, f)
  else
    let matRes : Except RStatus (List (Int × Int)) :=
      match f.stream with
      | none => mat
      | some l => .ok l
    match matRes with
    | .error e => (⟨0, e, []⟩, f)
    | .ok l =>
      let pr := popGo (blen : Int) l
      let f2 : FileSt := { f with stream := some pr.2.2 }
      let cl := copyLoop (blen : Int) 0 pr.1
      if cl.1 then
        if pr.2.1 < (blen : Int) then (⟨pr.2.1, .eof, cl.2⟩, f2)
        else (⟨pr.2.1, .ok, cl.2⟩, f2)
      else (⟨0, .errRead, cl.2⟩, f2)

/-- The sibling/child links of one directory entry, as consulted by
`traverse` (src/unnamed/part_004 lines 44-58).  The name, CLSID, times,
sector and size fields do not influence the traversal order and are
elided (the `path` bookkeeping built from names never feeds back into
control flow). -/
structure DirEnt where
  leftSibID : Nat
  rightSibID : Nat
  childID : Nat
deriving DecidableEq, Repr

/-- Mutable state of the traversal: the `r.indexes` slice (allocated as
`make([]int, len(r.File))`), the write cursor `idx`, and the `err`
variable (`true` once `ErrBadDir` has been assigned). -/
structure TravSt where
  indexes : List Nat
  idx : Nat
  errFlag : Bool
deriving DecidableEq, Repr

/-- Outcome of the traversal recursion: a normal return carrying the
state, a Go runtime panic (the write `r.indexes[idx] = i` with `idx`
past the end of the slice), or exhaustion of the recursion fuel (the Go
recursion never returns on such an input). -/
inductive TravOut where
  | ok (st : TravSt)
  | panicked
  | outOfFuel
deriving DecidableEq, Repr

/-- Sequencing of two traversal steps: a Go panic or fuel exhaustion in
the first step unwinds immediately; a normal return (the Go `recurse`
returning, whether or not it assigned `err` on the way) lets the caller
carry on with the state, exactly as in the source. -/
def propagate : TravOut → (TravSt → TravOut) → TravOut
  | .ok st, k => k st
  | .panicked, _ => .panicked
  | .outOfFuel, _ => .outOfFuel

/-- The second half of one `recurse` call (src/unnamed/part_004 lines
240-252): record the entry at the cursor — a Go panic if the cursor is
past the end of the `indexes` slice — then recurse into the child and
the right sibling when they are set. -/
def visitRest (ents : List DirEnt) (rec : Nat → TravSt → TravOut) (i : Nat)
    (st1 : TravSt) : TravOut :=
  if st1.idx < st1.indexes.length then
    propagate
      (if (ents.getD i ⟨noStream, noStream, noStream⟩).childID ≠ noStream then
        rec (ents.getD i ⟨noStream, noStream, noStream⟩).childID
          ⟨st1.indexes.set st1.idx i, st1.idx + 1, st1.errFlag⟩
      else .ok ⟨st1.indexes.set st1.idx i, st1.idx + 1, st1.errFlag⟩)
      fun st3 =>
        if (ents.getD i ⟨noStream, noStream, noStream⟩).rightSibID ≠ noStream then
          rec (ents.getD i ⟨noStream, noStream, noStream⟩).rightSibID st3
        else .ok st3
  else .panicked

/-- One call of the `recurse` closure of `traverse` (src/unnamed/part_004
lines 231-254), with `rec` standing for the recursive call.  `i` is
already a `Nat` because a Go `uint32` sibling ID converted to `int` is
never negative, so the `i < 0` half of the Go range check drops.  An
out-of-range `i` assigns `ErrBadDir` to the captured `err` variable and
returns, the caller carrying on as in the source; an in-range visit
recurses left, then records the entry and descends (`visitRest`). -/
def recurseBody (ents : List DirEnt) (rec : Nat → TravSt → TravOut) (i : Nat)
    (st : TravSt) : TravOut :=
  if i ≥ ents.length then .ok { st with errFlag := true }
  else
    propagate
      (if (ents.getD i ⟨noStream, noStream, noStream⟩).leftSibID ≠ noStream then
        rec (ents.getD i ⟨noStream, noStream, noStream⟩).leftSibID st
      else .ok st)
      (visitRest ents rec i)

/-- The `recurse` closure itself, with fuel bounding the number of
nested calls (the Go recursion is unbounded). -/
def recurseT (ents : List DirEnt) : Nat → Nat → TravSt → TravOut
  | 0, _, _ => .outOfFuel
  | fuel + 1, i, st => recurseBody ents (recurseT ents fuel) i st

/-- `traverse` from src/unnamed/part_004 lines 226-257: allocate
`indexes` with one slot per entry and run `recurse(0, [])`. -/
def traverseT (ents : List DirEnt) (fuel : Nat) : TravOut :=
  recurseT ents fuel 0 ⟨List.replicate ents.length 0, 0, false⟩

/-- Byte access `b[i]` on a Go byte slice, modelled as `getD` (all
concrete inputs used below are long enough for every access). -/
def byteAt (b : List Nat) (i : Nat) : Nat := b.getD i 0

/-- `binary.LittleEndian.Uint16`. -/
def u16At (b : List Nat) (i : Nat) : Nat := byteAt b i + 256 * byteAt b (i + 1)

/-- `binary.LittleEndian.Uint32`. -/
def u32At (b : List Nat) (i : Nat) : Nat := u16At b i + 2 ^ 16 * u16At b (i + 2)

/-- `binary.LittleEndian.Uint64`. -/
def u64At (b : List Nat) (i : Nat) : Nat := u32At b i + 2 ^ 32 * u32At b (i + 4)

/-- The compound-file signature constant (src/mscfb.go line 63). -/
def signatureConst : Nat := 0xE11AB1A1E011CFD0

/-- The header fields decoded by `makeHeader` (src/header.go lines
21-61). -/
structure HeaderFields where
  signatureF : Nat
  minorVersion : Nat
  majorVersion : Nat
  sectorShift : Nat
  numDirectorySectors : Nat
  numFatSectors : Nat
  directorySectorLoc : Nat
  miniFatSectorLoc : Nat
  numMiniFatSectors : Nat
  difatSectorLoc : Nat
  numDifatSectors : Nat
  headerDifats : List Nat
deriving DecidableEq, Repr

/-- `makeHeader` from src/header.go lines 42-61: decode the fixed header
offsets (the `SectorSize` Go field holds the sector *shift*). -/
def makeHeader (b : List Nat) : HeaderFields :=
  { signatureF := u64At b 0
    minorVersion := u16At b 24
    majorVersion := u16At b 26
    sectorShift := u16At b 30
    numDirectorySectors := u32At b 40
    numFatSectors := u32At b 44
    directorySectorLoc := u32At b 48
    miniFatSectorLoc := u32At b 60
    numMiniFatSectors := u32At b 64
    difatSectorLoc := u32At b 68
    numDifatSectors := u32At b 72
    headerDifats := (List.range 109).map fun k => u32At b (76 + 4 * k) }

/-- `setSectorSize` from src/mscfb.go lines 54-56:
`sectorSize = uint32(1 << ss)`.  For a shift of 32 or more the Go
result is 0, which the `% 2 ^ 32` reproduces. -/
def setSectorSize (ss : Nat) : Nat := 2 ^ ss % 2 ^ 32

/-- `setHeader` from src/header.go lines 92-104: decode the header,
reject a bad signature with `ErrFormat`, then derive the process-wide
sector size from the shift field.  No other field is validated.  The
result carries the decoded fields and the derived sector size. -/
def setHeaderModel (b : List Nat) : Except Unit (HeaderFields × Nat) :=
  let h := makeHeader b
  if h.signatureF ≠ signatureConst then .error ()
  else .ok (h, setSectorSize h.sectorShift)

/-- Outcome of `setMiniStream` (src/streams.go lines 18-47):
`noop` for the early `return nil`, `ok` for a successful build of the
two location slices, `err` for a propagated `findNext` error,
`panicked` for the Go runtime panic on an out-of-range slice write, and
`outOfFuel` when the unbounded ministream-chain loop exceeds the fuel. -/
inductive MiniOut where
  | noop
  | ok (miniFatLocs miniStreamLocs : List Nat)
  | err
  | panicked
  | outOfFuel
deriving DecidableEq, Repr

/-- The loop at src/streams.go lines 27-33: extend the mini-FAT
location list `k` more times, each step chaining from the previous
location via `findNext`. -/
def miniFatChain (findNext : Nat → Except Unit Nat) : Nat → Nat → Except Unit (List Nat)
  | _, 0 => .ok []
  | prev, k + 1 => do
    let loc ← findNext prev
    let rest ← miniFatChain findNext loc k
    .ok (loc :: rest)

/-- The loop at src/streams.go lines 37-45: collect the ministream
sector chain starting at the root entry's starting sector, until
`endOfChain`.  The Go loop is unbounded, hence the fuel. -/
def miniStreamChain (findNext : Nat → Except Unit Nat) : Nat → Nat → Option (Except Unit (List Nat))
  | _, 0 => none
  | sn, fuel + 1 =>
    if sn = endOfChain then some (.ok [])
    else
      match findNext sn with
      | .error e => some (.error e)
      | .ok nsn => (miniStreamChain findNext nsn fuel).map fun r => r.map (sn :: ·)

/-- `setMiniStream` from src/streams.go lines 18-47.  The chain walker
`findNext` abstracts `r.findNext(·, false)` over the underlying file.
The guard checks only the two `endOfChain` conditions; when it passes,
the Go code allocates `miniFatLocs` with `numMiniFatSectors` slots and
immediately writes index 0, which panics when that count is zero. -/
def setMiniStreamModel (findNext : Nat → Except Unit Nat)
    (rootStart miniFatSectorLoc numMiniFatSectors fuel : Nat) : MiniOut :=
  if rootStart = endOfChain ∨ miniFatSectorLoc = endOfChain then .noop
  else
    let init : List Nat := List.replicate numMiniFatSectors 0
    if 0 < init.length then
      match miniFatChain findNext miniFatSectorLoc (numMiniFatSectors - 1) with
      | .error _ => .err
      | .ok restLocs =>
        match miniStreamChain findNext rootStart fuel with
        | none => .outOfFuel
        | some (.error _) => .err
        | some (.ok streamLocs) => .ok (miniFatSectorLoc :: restLocs) streamLocs
    else .panicked

/-- `fileOffset` from src/mscfb.go lines 58-60:
`int64((sn + 1) * sectorSize)`.  Both operands are Go `uint32`, so the
multiply is performed modulo `2 ^ 32` before widening to `int64`. -/
def fileOffset (sn sectorSize : Nat) : Nat := (sn + 1) * sectorSize % 2 ^ 32

/-- The mini branch of `getOffset` (src/mscfb.go lines 96-107): locate
the regular sector backing mini-sector `sn` and add the within-sector
displacement; the arithmetic is again Go `uint32`. -/
def getOffsetMini (miniStreamLocs : List Nat) (sn sectorSize : Nat) : Except Unit Nat :=
  let num := sectorSize / 64
  let sec := sn / num
  if sec ≥ miniStreamLocs.length then .error ()
  else .ok ((miniStreamLocs.getD sec 0 + 1) * sectorSize % 2 ^ 32 + sn % num * 64 % 2 ^ 32)

/-- Iterator state of the reader (src/mscfb.go lines 135-143): the
number of loaded directory entries (`len(r.File)`), the traversal order
`r.indexes`, and the cursor `r.entry`. -/
structure ReaderSt where
  nFiles : Nat
  indexes : List Nat
  entry : Int
deriving DecidableEq, Repr

/-- `Next` from src/mscfb.go lines 192-198: advance the cursor, give
back `io.EOF` (`none`) once it reaches the entry count, otherwise the
position `r.indexes[r.entry]` of the current entry in `r.File`. -/
def readerNext (r : ReaderSt) : Option Nat × ReaderSt :=
  let r2 : ReaderSt := { r with entry := r.entry + 1 }
  if r2.entry ≥ (r2.nFiles : Int) then (none, r2)
  else (some (r2.indexes.getD r2.entry.toNat 0), r2)

/-- Result of `Reader.Read` as far as the cursor is concerned. -/
inductive RdrRead where
  | eofIter
  | delegate (fileIdx : Nat)
deriving DecidableEq, Repr

/-- `Read` from src/mscfb.go lines 201-206: `io.EOF` when the cursor is
past the entries, otherwise the call is delegated to
`r.File[r.indexes[r.entry]].Read`; the cursor is not moved. -/
def readerRead (r : ReaderSt) : RdrRead :=
  if r.entry ≥ (r.nFiles : Int) then .eofIter
  else .delegate (r.indexes.getD r.entry.toNat 0)

/-- Iterated `Next`, keeping only the state. -/
def nextIter (r : ReaderSt) : Nat → ReaderSt
  | 0 => r
  | k + 1 => nextIter (readerNext r).2 k

/-- The 12-entry directory of the end-to-end traversal scenario
(src/mscfb_test.go lines 14-63): links `(left, right, child)` per index,
`noStream` elsewhere. -/
def entries12 : List DirEnt :=
  [⟨noStream, noStream, 1⟩,
   ⟨noStream, 2, noStream⟩,
   ⟨noStream, 3, 5⟩,
   ⟨noStream, noStream, 7⟩,
   ⟨noStream, noStream, noStream⟩,
   ⟨4, 6, 9⟩,
   ⟨noStream, noStream, noStream⟩,
   ⟨noStream, noStream, 10⟩,
   ⟨noStream, noStream, noStream⟩,
   ⟨8, noStream, 11⟩,
   ⟨noStream, noStream, noStream⟩,
   ⟨noStream, noStream, noStream⟩]

/-- A one-entry directory whose root lists itself as its left sibling:
the recursion `recurse(0)` immediately calls `recurse(0)` again before
recording anything. -/
def loopEnts : List DirEnt := [⟨0, noStream, noStream⟩]

/-- A two-entry directory with a child cycle: the root's child is entry
1, and entry 1 names itself as its own child. -/
def cycEnts : List DirEnt :=
  [⟨noStream, noStream, 1⟩, ⟨noStream, noStream, 1⟩]

/-- The 512-byte header of the C3 scenario: correct signature bytes,
minor version 0x3E, major version 3, little-endian byte-order mark, and
sector-shift 0x000A (which is neither 0x0009 nor 0x000C and does not
match major version 3); every other field is zero. -/
def testHeaderBytes : List Nat :=
  [0xD0, 0xCF, 0x11, 0xE0, 0xA1, 0xB1, 0x1A, 0xE1] ++ List.replicate 16 0 ++
    [0x3E, 0, 3, 0, 0xFE, 0xFF, 0x0A, 0] ++ List.replicate 480 0

/-- Predicate on run lists: no two adjacent runs are contiguous in file
offset. -/
def NoAdjacentContiguous (l : List (Int × Int)) : Prop :=
  List.Chain' (fun p q => p.1 + p.2 ≠ q.1) l

/- ------------------------------------------------------------------
Helper lemmas about the run-merging loop.
------------------------------------------------------------------- -/

theorem compressRec_nil : compressRec ([] : List (Int × Int)) = [] := by
  simp [compressRec]

theorem compressRec_single (a : Int × Int) : compressRec [a] = [a] := by
  simp [compressRec]

theorem compressRec_cons (a b : Int × Int) (rest : List (Int × Int)) :
    compressRec (a :: b :: rest) =
      if a.1 + a.2 = b.1 then compressRec ((a.1, a.2 + b.2) :: rest)
      else a :: compressRec (b :: rest) := by
  simp [compressRec]

theorem compressAux_eq_rec :
    ∀ (fuel : Nat) (locs : List (Int × Int)), locs.length ≤ fuel + 1 →
      compressAux fuel locs = compressRec locs := by
  intro fuel
  induction fuel with
  | zero =>
    intro locs h
    match locs with
    | [] => rw [compressRec_nil]; rfl
    | [a] => rw [compressRec_single]; rfl
    | a :: b :: rest => simp at h
  | succ n ih =>
    intro locs h
    match locs with
    | [] => rw [compressRec_nil]; rfl
    | [a] => rw [compressRec_single]; rfl
    | a :: b :: rest =>
      have hA : compressAux (n + 1) (a :: b :: rest) =
          if a.1 + a.2 = b.1 then compressAux n ((a.1, a.2 + b.2) :: rest)
          else a :: compressAux n (b :: rest) := rfl
      simp only [List.length_cons] at h
      rw [hA, compressRec_cons]
      by_cases hc : a.1 + a.2 = b.1
      · rw [if_pos hc, if_pos hc]
        exact ih _ (by simp; omega)
      · rw [if_neg hc, if_neg hc, ih _ (by simp; omega)]

theorem compressChain_eq_rec (locs : List (Int × Int)) :
    compressChain locs = compressRec locs :=
  compressAux_eq_rec locs.length locs (Nat.le_succ _)

theorem compressRec_head :
    ∀ (n : Nat) (a : Int × Int) (l : List (Int × Int)), l.length ≤ n →
      ∃ c tl, compressRec (a :: l) = (a.1, c) :: tl := by
  intro n
  induction n with
  | zero =>
    intro a l h
    have : l = [] := List.length_eq_zero.mp (Nat.le_zero.mp h)
    subst this
    exact ⟨a.2, [], by rw [compressRec_single]⟩
  | succ n ih =>
    intro a l h
    match l with
    | [] => exact ⟨a.2, [], by rw [compressRec_single]⟩
    | b :: rest =>
      simp only [List.length_cons] at h
      by_cases hc : a.1 + a.2 = b.1
      · obtain ⟨c, tl, heq⟩ := ih (a.1, a.2 + b.2) rest (by omega)
        exact ⟨c, tl, by rw [compressRec_cons, if_pos hc]; exact heq⟩
      · exact ⟨a.2, compressRec (b :: rest), by rw [compressRec_cons, if_neg hc]⟩

theorem chain_compressRec :
    ∀ (n : Nat) (l : List (Int × Int)), l.length ≤ n →
      NoAdjacentContiguous (compressRec l) := by
  intro n
  induction n with
  | zero =>
    intro l h
    have : l = [] := List.length_eq_zero.mp (Nat.le_zero.mp h)
    subst this
    simp [NoAdjacentContiguous, compressRec]
  | succ n ih =>
    intro l h
    match l with
    | [] => simp [NoAdjacentContiguous, compressRec_nil]
    | [a] => simp [NoAdjacentContiguous, compressRec_single]
    | a :: b :: rest =>
      simp only [List.length_cons] at h
      by_cases hc : a.1 + a.2 = b.1
      · have := ih ((a.1, a.2 + b.2) :: rest) (by simp; omega)
        rw [compressRec_cons, if_pos hc]
        exact this
      · have hch := ih (b :: rest) (by simp; omega)
        obtain ⟨c, tl, heq⟩ := compressRec_head rest.length b rest le_rfl
        rw [compressRec_cons, if_neg hc]
        rw [heq] at hch ⊢
        exact List.Chain'.cons (by simpa using hc) hch

theorem compressRec_of_chained (l : List (Int × Int))
    (h : NoAdjacentContiguous l) : compressRec l = l := by
  induction l with
  | nil => exact compressRec_nil
  | cons a t ih =>
    match t with
    | [] => exact compressRec_single a
    | b :: rest =>
      rw [NoAdjacentContiguous, List.chain'_cons] at h
      rw [compressRec_cons, if_neg h.1, ih h.2]

theorem sumLen_compressRec :
    ∀ (n : Nat) (l : List (Int × Int)), l.length ≤ n →
      sumLen (compressRec l) = sumLen l := by
  intro n
  induction n with
  | zero =>
    intro l h
    have : l = [] := List.length_eq_zero.mp (Nat.le_zero.mp h)
    subst this
    rw [compressRec_nil]
  | succ n ih =>
    intro l h
    match l with
    | [] => rw [compressRec_nil]
    | [a] => rw [compressRec_single]
    | a :: b :: rest =>
      simp only [List.length_cons] at h
      by_cases hc : a.1 + a.2 = b.1
      · rw [compressRec_cons, if_pos hc, ih _ (by simp; omega)]
        simp [sumLen]
        ring
      · rw [compressRec_cons, if_neg hc]
        simp only [sumLen, List.map_cons, List.sum_cons] at *
        rw [ih _ (by simp; omega)]
        simp only [List.map_cons, List.sum_cons]

/-- C8: for every run list `x` the output of `compressChain` contains no
two adjacent runs that are contiguous in file offset, and consequently
`compressChain` is idempotent. -/
theorem compressChain_minimal_and_idempotent (x : List (Int × Int)) :
    NoAdjacentContiguous (compressChain x) ∧
    compressChain (compressChain x) = compressChain x := by
  constructor
  · rw [compressChain_eq_rec]
    exact chain_compressRec x.length x le_rfl
  · rw [compressChain_eq_rec, compressChain_eq_rec]
    exact compressRec_of_chained _ (chain_compressRec x.length x le_rfl)

/- ------------------------------------------------------------------
Helper lemmas about truncate.
------------------------------------------------------------------- -/

theorem sumLen_append (l1 l2 : List (Int × Int)) :
    sumLen (l1 ++ l2) = sumLen l1 + sumLen l2 := by
  simp [sumLen]

theorem sumLen_const (l : List (Int × Int)) (s : Int) (h : ∀ p ∈ l, p.2 = s) :
    sumLen l = (l.length : Int) * s := by
  induction l with
  | nil => simp [sumLen]
  | cons a t ih =>
    simp only [sumLen, List.map_cons, List.sum_cons] at *
    rw [h a (List.mem_cons_self a t), ih fun p hp => h p (List.mem_cons_of_mem a hp)]
    simp only [List.length_cons]
    push_cast
    ring

theorem set_last_append (init : List (Int × Int)) (b x : Int × Int) :
    (init ++ [b]).set init.length x = init ++ [x] := by
  induction init with
  | nil => rfl
  | cons a t ih => simp [List.set, ih]

theorem getLastD_append_single (l : List (Int × Int)) (b d : Int × Int) :
    (l ++ [b]).getLastD d = b := by
  induction l generalizing d with
  | nil => rfl
  | cons a t ih =>
    rw [List.cons_append, List.getLastD_cons]
    exact ih a

theorem headD_mem (l : List (Int × Int)) (d : Int × Int) (h : l ≠ []) :
    l.headD d ∈ l := by
  cases l with
  | nil => exact absurd rfl h
  | cons a t => simp

/-- C7: on a non-empty run list whose runs all have the same length `s`
and a declared size `sz` with `(len-1)*s < sz ≤ len*s`, `truncate`
changes only the last run (the prefix is untouched and the last run's
offset is preserved, its length positive and at most `s`), the run
lengths after `truncate` sum to `sz` exactly, and the length-sum
survives the `compressChain` pass that the stream materialiser applies
afterwards, so the materialised run list totals the declared size. -/
theorem truncate_total_size (locs : List (Int × Int)) (s sz : Int)
    (hne : locs ≠ [])
    (hall : ∀ p ∈ locs, p.2 = s)
    (hlo : ((locs.length : Int) - 1) * s < sz)
    (hhi : sz ≤ (locs.length : Int) * s) :
    (truncate locs sz).dropLast = locs.dropLast ∧
    (truncate locs sz).length = locs.length ∧
    (truncate locs sz).getLast? =
      some ((locs.getLastD (0, 0)).1, sz - ((locs.length : Int) - 1) * s) ∧
    0 < sz - ((locs.length : Int) - 1) * s ∧
    sz - ((locs.length : Int) - 1) * s ≤ s ∧
    sumLen (truncate locs sz) = sz ∧
    sumLen (compressChain (truncate locs sz)) = sz := by
  rcases List.eq_nil_or_concat locs with rfl | ⟨init, b, rfl⟩
  · exact absurd rfl hne
  rw [List.concat_eq_append] at *
  have hlen : ((init ++ [b]).length : Int) = (init.length : Int) + 1 := by
    simp
  have hhead : ((init ++ [b]).headD (0, 0)).2 = s :=
    hall _ (headD_mem _ _ hne)
  have hb : b.2 = s := hall b (by simp)
  have hlast : (init ++ [b]).getLastD (0, 0) = b := getLastD_append_single init b _
  have hset : truncate (init ++ [b]) sz =
      init ++ [(b.1, sz - (init.length : Int) * s)] := by
    unfold truncate
    rw [hhead, hlast]
    have hidx : (init ++ [b]).length - 1 = init.length := by simp
    rw [hidx, set_last_append]
    have : b.2 - (((init ++ [b]).length : Int) * s - sz) =
        sz - (init.length : Int) * s := by
      rw [hb, hlen]; ring
    rw [this]
  have hlen1 : sz - (((init ++ [b]).length : Int) - 1) * s =
      sz - (init.length : Int) * s := by
    rw [hlen]; ring_nf
  have hsuminit : sumLen init = (init.length : Int) * s :=
    sumLen_const init s fun p hp => hall p (by simp [hp])
  have hsum : sumLen (truncate (init ++ [b]) sz) = sz := by
    rw [hset, sumLen_append, hsuminit]
    simp [sumLen]
  refine ⟨?_, ?_, ?_, ?_, ?_, hsum, ?_⟩
  · rw [hset]
    simp
  · rw [hset]
    simp
  · rw [hset, hlast, hlen1]
    simp
  · rw [hlen1]
    have hlo2 : (init.length : Int) * s < sz := by
      rw [hlen] at hlo
      have : ((init.length : Int) + 1 - 1) * s = (init.length : Int) * s := by ring
      rw [this] at hlo
      exact hlo
    omega
  · rw [hlen1]
    rw [hlen] at hhi
    have : ((init.length : Int) + 1) * s = (init.length : Int) * s + s := by ring
    rw [this] at hhi
    omega
  · rw [compressChain_eq_rec, sumLen_compressRec _ _ le_rfl, hsum]

/-- Witness for C7 at the run list `[(0,512),(512,512)]` with `s = 512`
and declared size 600. -/
theorem truncate_total_size_witness :
    (truncate [((0 : Int), (512 : Int)), (512, 512)] 600).dropLast =
      ([((0 : Int), (512 : Int)), (512, 512)] : List (Int × Int)).dropLast ∧
    (truncate [((0 : Int), (512 : Int)), (512, 512)] 600).length =
      ([((0 : Int), (512 : Int)), (512, 512)] : List (Int × Int)).length ∧
    (truncate [((0 : Int), (512 : Int)), (512, 512)] 600).getLast? =
      some ((([((0 : Int), (512 : Int)), (512, 512)] : List (Int × Int)).getLastD (0, 0)).1,
        600 - ((([((0 : Int), (512 : Int)), (512, 512)] : List (Int × Int)).length : Int) - 1) * 512) ∧
    0 < 600 - ((([((0 : Int), (512 : Int)), (512, 512)] : List (Int × Int)).length : Int) - 1) * 512 ∧
    600 - ((([((0 : Int), (512 : Int)), (512, 512)] : List (Int × Int)).length : Int) - 1) * 512 ≤ 512 ∧
    sumLen (truncate [((0 : Int), (512 : Int)), (512, 512)] 600) = 600 ∧
    sumLen (compressChain (truncate [((0 : Int), (512 : Int)), (512, 512)] 600)) = 600 :=
  truncate_total_size [((0 : Int), (512 : Int)), (512, 512)] 512 600
    (by decide) (by decide) (by decide) (by decide)

/- ------------------------------------------------------------------
Helper lemmas about popStream and the Read copy loop.
------------------------------------------------------------------- -/

theorem sumLen_nonneg (l : List (Int × Int)) (h : ∀ p ∈ l, 0 ≤ p.2) :
    0 ≤ sumLen l := by
  induction l with
  | nil => simp [sumLen]
  | cons a t ih =>
    simp only [sumLen, List.map_cons, List.sum_cons] at *
    have := h a (List.mem_cons_self a t)
    have := ih fun p hp => h p (List.mem_cons_of_mem a hp)
    omega

theorem popGo_all (l : List (Int × Int)) (s : Int)
    (hnn : ∀ p ∈ l, 0 ≤ p.2) (hs : sumLen l ≤ s) :
    popGo s l = (l, sumLen l, []) := by
  induction l generalizing s with
  | nil => simp [popGo, sumLen]
  | cons v t ih =>
    have hsum : sumLen (v :: t) = v.2 + sumLen t := by
      simp [sumLen]
    have htnn : 0 ≤ sumLen t :=
      sumLen_nonneg t fun p hp => hnn p (List.mem_cons_of_mem v hp)
    have hs2 : v.2 + sumLen t ≤ s := by
      rw [hsum] at hs
      exact hs
    have hv : ¬ s < v.2 := by omega
    rw [popGo, if_neg hv,
      ih (s - v.2) (fun p hp => hnn p (List.mem_cons_of_mem v hp)) (by omega)]
    simp [hsum]

theorem copyLoop_ok (l : List (Int × Int)) (blen : Int) :
    ∀ idx : Int, (∀ p ∈ l, 0 ≤ p.2) → 0 ≤ idx → idx + sumLen l ≤ blen →
      copyLoop blen idx l = (true, l) := by
  induction l with
  | nil => intro idx _ _ _; rfl
  | cons v t ih =>
    intro idx hnn h0 hb
    have hsum : sumLen (v :: t) = v.2 + sumLen t := by
      simp [sumLen]
    have hvnn : 0 ≤ v.2 := hnn v (List.mem_cons_self v t)
    have htnn : 0 ≤ sumLen t :=
      sumLen_nonneg t fun p hp => hnn p (List.mem_cons_of_mem v hp)
    rw [hsum] at hb
    have hcond : ¬ (idx < 0 ∨ idx + v.2 < idx ∨ idx + v.2 > blen) := by
      push_neg
      refine ⟨h0, by omega, by omega⟩
    rw [copyLoop, if_neg hcond,
      ih (idx + v.2) (fun p hp => hnn p (List.mem_cons_of_mem v hp))
        (by omega) (by omega)]

/-- C5 (amended): when the remaining run-list total is positive but
smaller than the buffer, `File.Read` returns the short count paired with
end-of-stream on the *same* call (not a success status), and the
following call returns `(0, end-of-stream)`. -/
theorem fileRead_short_is_eof (mat : Except RStatus (List (Int × Int)))
    (f : FileSt) (l : List (Int × Int)) (blen : Nat)
    (hty : f.objectType = 2) (hsz : 1 ≤ f.size) (hstr : f.stream = some l)
    (hnn : ∀ p ∈ l, 0 ≤ p.2) (hpos : 0 < sumLen l)
    (hlt : sumLen l < (blen : Int)) :
    fileRead mat f blen =
      (⟨sumLen l, .eof, l⟩, { f with stream := some ([] : List (Int × Int)) }) ∧
    fileRead mat { f with stream := some ([] : List (Int × Int)) } blen =
      (⟨0, .eof, []⟩, { f with stream := some ([] : List (Int × Int)) }) := by
  have hguard : ¬ (f.objectType ≠ 2 ∨ f.size < 1) := by
    push_neg
    exact ⟨by rw [hty], hsz⟩
  have hpop : popGo (blen : Int) l = (l, sumLen l, []) :=
    popGo_all l _ hnn (le_of_lt hlt)
  have hcopy : copyLoop (blen : Int) 0 l = (true, l) :=
    copyLoop_ok l _ 0 hnn le_rfl (by omega)
  constructor
  · rw [fileRead, if_neg hguard, hstr]
    simp only [hpop, hcopy]
    rw [if_pos trivial, if_pos hlt]
  · rw [fileRead, if_neg hguard]
    simp only [popGo, copyLoop]
    rw [if_pos trivial, if_pos (show (0 : Int) < (blen : Int) by omega)]

/-- Witness for C5 (amended): a stream entry with 100 bytes remaining,
read with a 200-byte buffer. -/
theorem fileRead_short_is_eof_witness :
    fileRead (.ok []) ⟨2, 500, some [((50 : Int), (100 : Int))]⟩ 200 =
      (⟨sumLen [((50 : Int), (100 : Int))], .eof, [((50 : Int), (100 : Int))]⟩,
        { FileSt.mk 2 500 (some [((50 : Int), (100 : Int))]) with
            stream := some ([] : List (Int × Int)) }) ∧
    fileRead (.ok []) { FileSt.mk 2 500 (some [((50 : Int), (100 : Int))]) with
        stream := some ([] : List (Int × Int)) } 200 =
      (⟨0, .eof, []⟩,
        { FileSt.mk 2 500 (some [((50 : Int), (100 : Int))]) with
            stream := some ([] : List (Int × Int)) }) :=
  fileRead_short_is_eof (.ok []) ⟨2, 500, some [((50 : Int), (100 : Int))]⟩
    [((50 : Int), (100 : Int))] 200 rfl (by decide) rfl (by decide) (by decide)
    (by decide)

/-- Counterexample to C5 as stated: with 100 bytes remaining and a
200-byte buffer, the call does NOT return the short count with a
success status — it pairs the short count with end-of-stream on the
same call. -/
theorem fileRead_short_not_ok :
    fileRead (.ok []) ⟨2, 500, some [((50 : Int), (100 : Int))]⟩ 200 =
      (⟨100, .eof, [((50 : Int), (100 : Int))]⟩, ⟨2, 500, some []⟩) ∧
    RStatus.eof ≠ RStatus.ok := by
  constructor
  · rfl
  · intro h
    exact RStatus.noConfusion h

/-- C6 (amended): calling `File.Read` on a storage or root-storage entry
returns `(0, io.EOF)` — the very value used as the normal end-of-stream
terminator, not a distinct "no stream" error (the source has no such
error value) — without issuing any byte-source read and leaving the
entry state unchanged. -/
theorem fileRead_storage_returns_eof (mat : Except RStatus (List (Int × Int)))
    (f : FileSt) (blen : Nat) (h : f.objectType = 1 ∨ f.objectType = 5) :
    fileRead mat f blen = (⟨0, .eof, []⟩, f) := by
  have hguard : f.objectType ≠ 2 ∨ f.size < 1 := by
    rcases h with h | h <;> · left; rw [h]; omega
  rw [fileRead, if_pos hguard]

/-- Witness for C6 (amended) at a storage entry. -/
theorem fileRead_storage_returns_eof_witness :
    fileRead (.ok []) ⟨1, 0, none⟩ 10 = (⟨0, .eof, []⟩, ⟨1, 0, none⟩) :=
  fileRead_storage_returns_eof (.ok []) ⟨1, 0, none⟩ 10 (Or.inl rfl)

/-- Counterexample to C6 as stated: reading a storage entry yields the
status `RStatus.eof` — exactly the same value an exhausted stream entry
yields — so the result is not an error kind distinct from the normal
end-of-stream terminator. -/
theorem fileRead_storage_same_as_eof :
    (fileRead (.ok []) ⟨1, 0, none⟩ 10).1.status = RStatus.eof ∧
    (fileRead (.ok []) ⟨2, 500, some ([] : List (Int × Int))⟩ 10).1.status =
      RStatus.eof := by
  constructor <;> rfl

/- ------------------------------------------------------------------
Fuel monotonicity of the traversal: a terminating run (normal return or
panic) is unchanged by extra fuel, so evaluating at a sufficient
concrete fuel determines the Go recursion's behaviour.
------------------------------------------------------------------- -/

theorem visitRest_congr (ents : List DirEnt) (f g : Nat → TravSt → TravOut)
    (hfg : ∀ j st, g j st ≠ .outOfFuel → f j st = g j st) (i : Nat) (st1 : TravSt)
    (h : visitRest ents g i st1 ≠ .outOfFuel) :
    visitRest ents f i st1 = visitRest ents g i st1 := by
  unfold visitRest at h ⊢
  by_cases hidx : st1.idx < st1.indexes.length
  · simp only [if_pos hidx] at h ⊢
    by_cases hC : (ents.getD i ⟨noStream, noStream, noStream⟩).childID ≠ noStream
    · simp only [if_pos hC] at h ⊢
      have hgcne : g (ents.getD i ⟨noStream, noStream, noStream⟩).childID
          ⟨st1.indexes.set st1.idx i, st1.idx + 1, st1.errFlag⟩ ≠ .outOfFuel := by
        intro hh
        rw [hh] at h
        exact h rfl
      rw [hfg _ _ hgcne]
      cases hgc : g (ents.getD i ⟨noStream, noStream, noStream⟩).childID
          ⟨st1.indexes.set st1.idx i, st1.idx + 1, st1.errFlag⟩ with
      | outOfFuel => exact absurd hgc hgcne
      | panicked => rfl
      | ok st3 =>
        rw [hgc] at h
        simp only [propagate] at h ⊢
        by_cases hR : (ents.getD i ⟨noStream, noStream, noStream⟩).rightSibID ≠ noStream
        · simp only [if_pos hR] at h ⊢
          exact hfg _ _ h
        · simp only [if_neg hR]
    · simp only [if_neg hC] at h ⊢
      simp only [propagate] at h ⊢
      by_cases hR : (ents.getD i ⟨noStream, noStream, noStream⟩).rightSibID ≠ noStream
      · simp only [if_pos hR] at h ⊢
        exact hfg _ _ h
      · simp only [if_neg hR]
  · simp only [if_neg hidx]

theorem recurseBody_congr (ents : List DirEnt) (f g : Nat → TravSt → TravOut)
    (hfg : ∀ j st, g j st ≠ .outOfFuel → f j st = g j st) (i : Nat) (st : TravSt)
    (h : recurseBody ents g i st ≠ .outOfFuel) :
    recurseBody ents f i st = recurseBody ents g i st := by
  unfold recurseBody at h ⊢
  by_cases hr : i ≥ ents.length
  · simp only [if_pos hr]
  · simp only [if_neg hr] at h ⊢
    by_cases hL : (ents.getD i ⟨noStream, noStream, noStream⟩).leftSibID ≠ noStream
    · simp only [if_pos hL] at h ⊢
      have hglne : g (ents.getD i ⟨noStream, noStream, noStream⟩).leftSibID st ≠
          .outOfFuel := by
        intro hh
        rw [hh] at h
        exact h rfl
      rw [hfg _ _ hglne]
      cases hgl : g (ents.getD i ⟨noStream, noStream, noStream⟩).leftSibID st with
      | outOfFuel => exact absurd hgl hglne
      | panicked => rfl
      | ok st1 =>
        rw [hgl] at h
        simp only [propagate] at h ⊢
        exact visitRest_congr ents f g hfg i st1 h
    · simp only [if_neg hL] at h ⊢
      simp only [propagate] at h ⊢
      exact visitRest_congr ents f g hfg i st h

theorem recurseT_mono (ents : List DirEnt) :
    ∀ fuel i st, recurseT ents fuel i st ≠ TravOut.outOfFuel →
      recurseT ents (fuel + 1) i st = recurseT ents fuel i st := by
  intro fuel
  induction fuel with
  | zero =>
    intro i st h
    exact absurd rfl h
  | succ n ih =>
    intro i st h
    exact recurseBody_congr ents (recurseT ents (n + 1)) (recurseT ents n)
      (fun j st2 hj => ih j st2 hj) i st h

theorem recurseT_stable (ents : List DirEnt) (fuel : Nat) (i : Nat) (st : TravSt)
    (h : recurseT ents fuel i st ≠ TravOut.outOfFuel) :
    ∀ k, recurseT ents (fuel + k) i st = recurseT ents fuel i st := by
  intro k
  induction k with
  | zero => rfl
  | succ m ihm =>
    have hne : recurseT ents (fuel + m) i st ≠ TravOut.outOfFuel := by
      rw [ihm]
      exact h
    have : fuel + (m + 1) = (fuel + m) + 1 := rfl
    rw [this, recurseT_mono ents (fuel + m) i st hne, ihm]

/-- C1: on the 12-entry directory of the end-to-end scenario (root 0
with child 1; Alpha right 2; Bravo right 3 child 5; Charlie child 7;
Echo left 4 right 6 child 9; Golf child 10; Indigo left 8 child 11),
the traversal records the visitation order
`[0, 1, 2, 4, 5, 8, 9, 11, 6, 3, 7, 10]` in `indexes` — the in-order
walk (left subtree, node, right subtree) of each children tree from the
root — for every recursion budget of at least 24. -/
theorem traverse_scenario_order (fuel : Nat) (h : 24 ≤ fuel) :
    traverseT entries12 fuel =
      TravOut.ok ⟨[0, 1, 2, 4, 5, 8, 9, 11, 6, 3, 7, 10], 12, false⟩ := by
  obtain ⟨k, rfl⟩ : ∃ k, fuel = 24 + k := ⟨fuel - 24, by omega⟩
  have base : recurseT entries12 24 0 ⟨List.replicate entries12.length 0, 0, false⟩ =
      TravOut.ok ⟨[0, 1, 2, 4, 5, 8, 9, 11, 6, 3, 7, 10], 12, false⟩ := by decide
  unfold traverseT
  rw [recurseT_stable entries12 24 0 _
    (by rw [base]; exact fun hh => TravOut.noConfusion hh) k, base]

/-- Witness for C1 at the smallest covered fuel. -/
theorem traverse_scenario_order_witness :
    traverseT entries12 24 =
      TravOut.ok ⟨[0, 1, 2, 4, 5, 8, 9, 11, 6, 3, 7, 10], 12, false⟩ :=
  traverse_scenario_order 24 (by decide)

theorem recurseT_loop_diverges :
    ∀ fuel, recurseT loopEnts fuel 0 ⟨[0], 0, false⟩ = TravOut.outOfFuel := by
  intro fuel
  induction fuel with
  | zero => rfl
  | succ n ih =>
    show recurseBody loopEnts (recurseT loopEnts n) 0 ⟨[0], 0, false⟩ =
      TravOut.outOfFuel
    unfold recurseBody
    rw [if_neg (by decide : ¬ (0 ≥ loopEnts.length)),
      if_pos (by decide :
        (loopEnts.getD 0 ⟨noStream, noStream, noStream⟩).leftSibID ≠ noStream),
      show (loopEnts.getD 0 ⟨noStream, noStream, noStream⟩).leftSibID = 0 from rfl,
      ih]
    rfl

/-- C2 fails on the code: `traverse` checks only that a sibling/child ID
is inside the directory array and keeps no record of visited indices, so
a cycle is not reported as a bad-directory error.  On the one-entry
directory whose root lists itself as its left sibling the recursion
never terminates (it runs out of any fuel bound — a stack overflow in
Go); on the two-entry directory whose entry 1 is its own child the
recursion terminates by a Go runtime panic, writing `indexes[2]` on the
length-2 slice. -/
theorem traverse_cycle_not_baddir :
    (∀ fuel, traverseT loopEnts fuel = TravOut.outOfFuel) ∧
    traverseT cycEnts 12 = TravOut.panicked := by
  refine ⟨fun fuel => ?_, by decide⟩
  show recurseT loopEnts fuel 0 ⟨List.replicate loopEnts.length 0, 0, false⟩ = _
  exact recurseT_loop_diverges fuel

/-- C3 fails on the code: `setHeader` validates the signature only — it
never checks the sector-shift field or its consistency with the major
version (the declared `ErrSectorSize` error is never returned anywhere
in the source).  On a header with a correct signature, major version 3
and sector-shift `0x000A`, `setHeader` succeeds and installs sector
size 1024, which is neither 512 nor 4096. -/
theorem setHeader_accepts_invalid_shift :
    setHeaderModel testHeaderBytes = .ok (makeHeader testHeaderBytes, 1024) ∧
    (makeHeader testHeaderBytes).majorVersion = 3 ∧
    (makeHeader testHeaderBytes).sectorShift = 10 ∧
    (makeHeader testHeaderBytes).signatureF = signatureConst ∧
    (1024 : Nat) ≠ 512 ∧ (1024 : Nat) ≠ 4096 := by
  refine ⟨?_, by decide, by decide, by decide, by decide, by decide⟩
  rw [setHeaderModel, if_neg (by decide :
    ¬ (makeHeader testHeaderBytes).signatureF ≠ signatureConst)]
  rfl

/-- C4 fails on the code: the early-return guard of `setMiniStream`
tests only the two `endOfChain` conditions, not
`numMiniFatSectors == 0`.  When the count is zero while the root's
starting sector (here 0) and the mini-FAT location (here 1) are regular
sector numbers, the write `miniFatLocs[0] = ...` indexes a zero-length
slice: a Go runtime panic, not a no-op success — whatever the chain
walker would answer and whatever the fuel. -/
theorem setMiniStream_zero_minifat_panics
    (findNext : Nat → Except Unit Nat) (fuel : Nat) :
    setMiniStreamModel findNext 0 1 0 fuel = MiniOut.panicked := rfl

/-- C9 fails on the code: `fileOffset` multiplies `(sn + 1) * sectorSize`
in 32-bit arithmetic before widening to `int64`, so for sector number
8388608 (well below `MAX_REGULAR`) with sector size 512 the true byte
offset 4294967808 exceeds `2^32` and the function silently wraps to
offset 512, which is then handed to the byte source. -/
theorem fileOffset_silently_wraps :
    fileOffset 8388608 512 = 512 ∧
    (8388608 + 1) * 512 = 4294967808 ∧
    2 ^ 32 ≤ 4294967808 ∧
    8388608 ≤ maxRegSect ∧
    fileOffset 8388608 512 ≠ (8388608 + 1) * 512 := by
  refine ⟨by decide, by decide, by decide, by decide, by decide⟩

/- ------------------------------------------------------------------
The iterator: end-of-iteration is terminal.
------------------------------------------------------------------- -/

theorem readerNext_snd (r : ReaderSt) :
    (readerNext r).2 = { r with entry := r.entry + 1 } := by
  unfold readerNext
  dsimp only
  split <;> rfl

theorem readerNext_none_iff (r : ReaderSt) :
    (readerNext r).1 = none ↔ r.entry + 1 ≥ (r.nFiles : Int) := by
  unfold readerNext
  dsimp only
  constructor
  · intro h
    by_cases hc : r.entry + 1 ≥ (r.nFiles : Int)
    · exact hc
    · rw [if_neg hc] at h
      exact absurd h (by simp)
  · intro h
    rw [if_pos h]

theorem nextIter_fields (k : Nat) : ∀ r : ReaderSt,
    (nextIter r k).entry = r.entry + k ∧ (nextIter r k).nFiles = r.nFiles := by
  induction k with
  | zero => intro r; exact ⟨by simp [nextIter], rfl⟩
  | succ m ihm =>
    intro r
    have h1 := ihm (readerNext r).2
    rw [readerNext_snd r] at h1
    refine ⟨?_, ?_⟩
    · show (nextIter (readerNext r).2 m).entry = _
      rw [readerNext_snd r, h1.1]
      push_cast
      ring
    · show (nextIter (readerNext r).2 m).nFiles = _
      rw [readerNext_snd r, h1.2]

/-- C10: once `Next` has returned end-of-iteration (`io.EOF`, modelled
as `none`), the result is terminal — after any number of further `Next`
calls, `Next` still returns end-of-iteration and never an entry, and
`Read` returns end-of-iteration as well. -/
theorem next_eof_terminal (r : ReaderSt) (h : (readerNext r).1 = none) (k : Nat) :
    (readerNext (nextIter (readerNext r).2 k)).1 = none ∧
    readerRead (nextIter (readerNext r).2 k) = RdrRead.eofIter := by
  have hge : r.entry + 1 ≥ (r.nFiles : Int) := (readerNext_none_iff r).mp h
  have hf := nextIter_fields k (readerNext r).2
  rw [readerNext_snd r] at hf
  have hE : (nextIter (readerNext r).2 k).entry = r.entry + 1 + k := by
    rw [readerNext_snd r, hf.1]
  have hN : ((nextIter (readerNext r).2 k).nFiles : Int) = (r.nFiles : Int) := by
    rw [readerNext_snd r, hf.2]
  constructor
  · rw [readerNext_none_iff, hE, hN]
    have : (0 : Int) ≤ (k : Int) := Int.natCast_nonneg k
    omega
  · rw [readerRead, if_pos (by
      rw [hE, hN]
      have : (0 : Int) ≤ (k : Int) := Int.natCast_nonneg k
      omega)]

/-- Witness for C10 on a one-entry reader whose first `Next` call
already reports end-of-iteration, re-checked three calls later. -/
theorem next_eof_terminal_witness :
    (readerNext (nextIter (readerNext ⟨1, [0], 0⟩).2 3)).1 = none ∧
    readerRead (nextIter (readerNext ⟨1, [0], 0⟩).2 3) = RdrRead.eofIter :=
  next_eof_terminal ⟨1, [0], 0⟩ (by decide) 3

end Mscfb
